import Mathlib

/-!
Verification of the belief query/aggregation/deduplication engine of this
repository (services/time_series.py and the pickle-backed data helpers).

Times are modelled as integers (minutes since an arbitrary epoch), event
values and cumulative probabilities as integers (a fixed scaling of the
floats used by the code; none of the verified properties depend on the
scale).  A stored belief row carries the composite key fields of the data
model: (event_start, belief_horizon, source, cumulative_probability) plus
the asserted event_value.
-/

/-- Shallow embedding of one belief row (one row of the TimedBelief table /
one row of a BeliefsDataFrame). -/
structure Belief where
  event_start : Int
  belief_horizon : Int
  source : Nat
  cp : Int
  event_value : Int
deriving DecidableEq

/-- Belief time of a row: event end minus belief horizon, where the event
spans [event_start, event_start + res). -/
def beliefTime (res : Int) (r : Belief) : Int :=
  r.event_start + res - r.belief_horizon

/-- Key used both by the within-batch duplicate drop and by the comparison
against the database: compare_fields =
[event_start, source, cumulative_probability, event_value]. -/
def dupKey (r : Belief) : Int × Nat × Int × Int :=
  (r.event_start, r.source, r.cp, r.event_value)

/-- Generic first-occurrence deduplication by a key function, the semantics
of DataFrame.drop_duplicates(subset=key, keep="first"). -/
def dedupBy {α κ : Type} [DecidableEq κ] (key : α → κ) : List α → List α
  | [] => []
  | a :: rest => a :: (dedupBy key rest).filter (fun x => key x ≠ key a)

/-- Lexicographic order on the BeliefsDataFrame index
(event_start, belief_time, source, cumulative_probability), used by
sort_index(). -/
def idxLe (res : Int) (a b : Belief) : Prop :=
  a.event_start < b.event_start ∨
    (a.event_start = b.event_start ∧
      (beliefTime res a < beliefTime res b ∨
        (beliefTime res a = beliefTime res b ∧
          (a.source < b.source ∨ (a.source = b.source ∧ a.cp ≤ b.cp)))))

instance (res : Int) : DecidableRel (idxLe res) := fun a b => by
  unfold idxLe; infer_instance

instance (res : Int) : IsTotal Belief (idxLe res) :=
  ⟨by intro a b; unfold idxLe; omega⟩

instance (res : Int) : IsTrans Belief (idxLe res) :=
  ⟨by intro a b c; unfold idxLe; omega⟩

/-- Within-batch deduplication step of drop_unchanged_beliefs:
sort_index() followed by drop_duplicates on dupKey, keeping the first
(i.e. earliest belief time) occurrence. -/
def withinDedup (res : Int) (l : List Belief) : List Belief :=
  dedupBy dupKey (List.insertionSort (idxLe res) l)

/-- Lexicographic order on (belief_time, source) group keys; pandas groupby
iterates groups in ascending key order. -/
def gkLe (a b : Int × Nat) : Prop :=
  a.1 < b.1 ∨ (a.1 = b.1 ∧ a.2 ≤ b.2)

instance : DecidableRel gkLe := fun a b => by
  unfold gkLe; infer_instance

instance : IsTotal (Int × Nat) gkLe :=
  ⟨by intro a b; unfold gkLe; omega⟩

instance : IsTrans (Int × Nat) gkLe :=
  ⟨by intro a b c; unfold gkLe; omega⟩

/-- Group keys of groupby(level=[belief_time, source]): the distinct
(belief_time, source) pairs, in ascending order. -/
def groupKeys (res : Int) (l : List Belief) : List (Int × Nat) :=
  List.insertionSort gkLe (dedupBy id (l.map (fun r => (beliefTime res r, r.source))))

/-- Rows of one (belief_time, source) group, in frame order. -/
def groupOf (res : Int) (l : List Belief) (k : Int × Nat) : List Belief :=
  l.filter (fun r => (beliefTime res r, r.source) = k)

/-- Sign filter of the database lookup in _drop_unchanged_beliefs_compared_to_db:
horizons_at_least 0 when the group is ex-ante (first horizon > 0), else
horizons_at_most 0. -/
def signMatch (r0 d : Belief) : Prop :=
  if 0 < r0.belief_horizon then 0 ≤ d.belief_horizon else d.belief_horizon ≤ 0

instance (r0 d : Belief) : Decidable (signMatch r0 d) := by
  unfold signMatch; infer_instance

/-- Modelled from the spec: the store lookup
sensor.search_beliefs(event_starts_after, event_ends_before, beliefs_before,
source, horizons filter) is not part of src/ (it lives in the store adapter);
per the spec it returns the stored rows satisfying all bounds (inclusive),
for the one source, with belief_time at most the given cutoff. -/
def searchPrev (db : List Belief) (res : Int) (r0 : Belief)
    (eMin eMax t : Int) (s : Nat) : List Belief :=
  db.filter (fun d =>
    d.source = s ∧ signMatch r0 d ∧ eMin ≤ d.event_start ∧
      d.event_start + res ≤ eMax + res ∧ beliefTime res d ≤ t)

/-- Modelled from the spec: select_most_recent_belief of the external
timely_beliefs utils keeps, per event, the stored rows carrying the most
recent belief time. -/
def mostRecentRows (res : Int) (l : List Belief) : List Belief :=
  l.filter (fun d =>
    l.all (fun d2 =>
      d2.event_start ≠ d.event_start ∨ beliefTime res d2 ≤ beliefTime res d))

/-- Database rows _drop_unchanged_beliefs_compared_to_db looks up for one
(belief_time, source) group g with first row r0: previously stored beliefs of
the group's source and sign, within the group's event range, formed at or
before the group's belief time. -/
def groupPrev (db : List Belief) (res : Int) (g : List Belief) (r0 : Belief) :
    List Belief :=
  searchPrev db res r0 r0.event_start (g.getLastD r0).event_start
    (beliefTime res r0) r0.source

/-- Index of previously stored most recent beliefs to compare against
(variable b in the Python function). -/
def groupBidx (db : List Belief) (res : Int) (g : List Belief) (r0 : Belief) :
    List (Int × Nat × Int × Int) :=
  (mostRecentRows res (groupPrev db res g r0)).map dupKey

/-- Rows of the group whose full compare-fields tuple is not already stored
(the frame after a.drop(b.index)). -/
def groupAfterDrop (db : List Belief) (res : Int) (g : List Belief) (r0 : Belief) :
    List Belief :=
  g.filter (fun r => ¬ dupKey r ∈ groupBidx db res g r0)

/-- Shallow embedding of _drop_unchanged_beliefs_compared_to_db applied to one
(belief_time, source) group: drop the rows whose full compare-fields tuple is
already the most recent stored belief, then restore every row whose
(event_start, source) still has a surviving (changed) row, so that whole
probabilistic beliefs are kept. -/
def dropVsDb (db : List Belief) (res : Int) : List Belief → List Belief
  | [] => []
  | r0 :: rest =>
    (r0 :: rest).filter (fun r =>
      (groupAfterDrop db res (r0 :: rest) r0).any (fun r2 =>
        r2.event_start = r.event_start ∧ r2.source = r.source))

/-- Shallow embedding of the homogeneous (single-sign) path of
drop_unchanged_beliefs: within-batch dedup, then groupby
(belief_time, source) with _drop_unchanged_beliefs_compared_to_db applied to
each group and the group results concatenated. -/
def homogDrop (db : List Belief) (res : Int) (l : List Belief) : List Belief :=
  (groupKeys res (withinDedup res l)).flatMap
    (fun k => dropVsDb db res (groupOf res (withinDedup res l) k))

/-- Shallow embedding of drop_unchanged_beliefs.  When the batch mixes
ex-ante (horizon > 0) and ex-post (horizon <= 0) rows it processes the two
partitions independently and concatenates; the Python function recurses on
each partition, and on a homogeneous nonempty partition that recursive call
runs exactly the homogeneous path, which homogDrop embeds directly. -/
def drop_unchanged_beliefs (db : List Belief) (res : Int) (bdf : List Belief) :
    List Belief :=
  if bdf = [] then []
  else if bdf.filter (fun r => 0 < r.belief_horizon) ≠ [] ∧
      bdf.filter (fun r => r.belief_horizon ≤ 0) ≠ [] then
    homogDrop db res (bdf.filter (fun r => 0 < r.belief_horizon)) ++
      homogDrop db res (bdf.filter (fun r => r.belief_horizon ≤ 0))
  else
    homogDrop db res bdf

/-!
Read path: query_time_series_data and its helpers.
-/

/-- Shallow embedding of one raw row as returned by the store query
(columns name, datetime, value, horizon, DataSource). -/
structure RawRow where
  name : String
  datetime : Int
  value : Int
  horizon : Int
  source : Nat
deriving DecidableEq

/-- Ordering used by sort_values(by=[horizon], ascending=True). -/
def hLe (a b : RawRow) : Prop := a.horizon ≤ b.horizon

instance : DecidableRel hLe := fun a b => by unfold hLe; infer_instance

instance : IsTotal RawRow hLe := ⟨by intro a b; unfold hLe; omega⟩

instance : IsTrans RawRow hLe := ⟨by intro a b c; unfold hLe; omega⟩

/-- Ordering used by sort_values(by=[datetime]). -/
def dtLe (a b : RawRow) : Prop := a.datetime ≤ b.datetime

instance : DecidableRel dtLe := fun a b => by unfold dtLe; infer_instance

instance : IsTotal RawRow dtLe := ⟨by intro a b; unfold dtLe; omega⟩

instance : IsTrans RawRow dtLe := ⟨by intro a b c; unfold dtLe; omega⟩

/-- Shallow embedding of the most-recent-observation block of
query_time_series_data: sort by horizon ascending, keep the first row per
datetime, then sort by datetime.  The pandas sort is unspecified on horizon
ties; the proven facts below do not depend on tie order. -/
def selectMostRecent (l : List RawRow) : List RawRow :=
  List.insertionSort dtLe (dedupBy (fun r => r.datetime) (List.insertionSort hLe l))

/-- Shallow embedding of one row of the per-sensor BeliefsDataFrame after the
renaming block (value to event_value, datetime to event_start, horizon to
belief_horizon). -/
structure EventRow where
  event_start : Int
  belief_horizon : Int
  source : Nat
  event_value : Int
deriving DecidableEq

/-- Column renaming of query_time_series_data. -/
def toEventRow (r : RawRow) : EventRow :=
  ⟨r.datetime, r.horizon, r.source, r.value⟩

/-- Shallow embedding of the query-window slicing applied after resampling:
keep rows with event_start at or after the window start (when given) and
strictly before the window end (when given). -/
def sliceQueryWindow (wStart wEnd : Option Int) (f : List EventRow) : List EventRow :=
  let f1 := match wStart with
    | none => f
    | some s => f.filter (fun r => s ≤ r.event_start)
  match wEnd with
  | none => f1
  | some e => f1.filter (fun r => r.event_start < e)

/-- Shallow embedding of one row of a pickled per-asset data frame used by
get_data_for_assets (utils.py): a datetime index label and a value column. -/
structure PickleRow where
  idx : Int
  y : Int
deriving DecidableEq

/-- Shallow embedding of the date mask of get_data_for_assets:
(index >= start) and (index <= end), then .loc[date_mask]. -/
def get_data_window_filter (startT endT : Int) (f : List PickleRow) : List PickleRow :=
  f.filter (fun r => startT ≤ r.idx ∧ r.idx ≤ endT)

/-- Shallow embedding of a Sensor record as far as the query path needs it. -/
structure Sensor where
  name : String
  event_resolution : Int
deriving DecidableEq

/-- Shallow embedding of find_sensor_by_name: Sensor.query.filter(name).one_or_none,
raising on zero or several matches. -/
def find_sensor_by_name (sensors : List Sensor) (n : String) : Except String Sensor :=
  match sensors.filter (fun s => s.name = n) with
  | [s] => Except.ok s
  | [] => Except.error ("Unknown sensor: " ++ n)
  | _ => Except.error ("Multiple sensors found for name " ++ n)

/-- Bucket label of an event under the target resolution. -/
def bucketStart (target : Int) (e : Int) : Int :=
  target * (e / target)

/-- Modelled from the spec: the mean-aggregation downsampling of the
Resampler (resample_events lives in the external timely_beliefs package, not
under src/); sub-period values of each target bucket are averaged. -/
def downsampleMean (target : Int) (f : List EventRow) : List EventRow :=
  (dedupBy id (f.map (fun r => bucketStart target r.event_start))).map (fun b =>
    let bucket := f.filter (fun r => bucketStart target r.event_start = b)
    ⟨b, (bucket.map (fun r => r.belief_horizon)).headD 0,
      (bucket.map (fun r => r.source)).headD 0,
      (bucket.map (fun r => r.event_value)).sum / (bucket.length : Int)⟩)

/-- Modelled from the spec: resample_events of the external timely_beliefs
package (called with keep_only_most_recent_belief=True).  Per spec section
4.3: equal target is a no-op; a larger, evenly dividing target aggregates by
mean; a smaller, evenly dividing target is a no-op (upsampling unsupported);
any resolution ratio that is not integral fails with UnsupportedResolution. -/
def resample_events (native target : Int) (f : List EventRow) :
    Except String (List EventRow) :=
  if target = native then Except.ok f
  else if 0 < native ∧ native < target ∧ target % native = 0 then
    Except.ok (downsampleMean target f)
  else if 0 < target ∧ target < native ∧ native % target = 0 then
    Except.ok f
  else Except.error "UnsupportedResolution"

/-- Shallow embedding of the per-sensor body of the query_time_series_data
loop (non-demo mode): select the rows of this sensor, keep the most recent
observation per datetime, rename columns, look up the sensor (which can
fail), resample to the requested resolution (the sensor resolution when none
is requested), then slice the query window. -/
def queryOneSensor (sensors : List Sensor) (rows : List RawRow)
    (resolution : Option Int) (wStart wEnd : Option Int) (n : String) :
    Except String (List EventRow) :=
  let df := selectMostRecent (rows.filter (fun r => r.name = n))
  let bdf := df.map toEventRow
  match find_sensor_by_name sensors n with
  | Except.error e => Except.error e
  | Except.ok sensor =>
    let res := resolution.getD sensor.event_resolution
    match resample_events sensor.event_resolution res bdf with
    | Except.error e => Except.error e
    | Except.ok rs => Except.ok (sliceQueryWindow wStart wEnd rs)

/-- Shallow embedding of query_time_series_data over a tuple of sensor names
(non-demo mode): one pass over the names building the name-to-frame mapping;
an exception raised for one sensor propagates and aborts the whole loop, as
in the Python code, which has no handler around the loop body. -/
def queryLoop (sensors : List Sensor) (rows : List RawRow)
    (resolution : Option Int) (wStart wEnd : Option Int) :
    List (String × List EventRow) → List String →
      Except String (List (String × List EventRow))
  | acc, [] => Except.ok acc
  | acc, n :: rest =>
    match queryOneSensor sensors rows resolution wStart wEnd n with
    | Except.error e => Except.error e
    | Except.ok bdf => queryLoop sensors rows resolution wStart wEnd (acc ++ [(n, bdf)]) rest

def query_time_series_data (sensors : List Sensor) (rows : List RawRow)
    (resolution : Option Int) (wStart wEnd : Option Int) (names : List String) :
    Except String (List (String × List EventRow)) :=
  queryLoop sensors rows resolution wStart wEnd [] names

/-!
Cross-sensor aggregation: aggregate_values.
-/

/-- Shallow embedding of one row of a simplified BeliefsDataFrame as consumed
by aggregate_values (deterministic beliefs: event_start, source, value). -/
structure AggRow where
  event_start : Int
  source : Nat
  event_value : Int
deriving DecidableEq

/-- Distinct sources of a frame (lineage.sources). -/
def sourcesOf (f : List AggRow) : List Nat :=
  dedupBy id (f.map (fun r => r.source))

/-- Lineage flag unique_beliefs_per_event_per_source: at most one row per
(event_start, source). -/
def uniqueBeliefsPerEventPerSource (f : List AggRow) : Prop :=
  (f.map (fun r => (r.event_start, r.source))).Nodup

instance (f : List AggRow) : Decidable (uniqueBeliefsPerEventPerSource f) := by
  unfold uniqueBeliefsPerEventPerSource; infer_instance

/-- Value a frame holds at one event_start (its first row there; the
event_start labels of the frame are unique whenever this is reached, see
addAligned); a missing event contributes fill_value 0. -/
def valueAt (f : List AggRow) (e : Int) : Int :=
  match f.find? (fun r => r.event_start = e) with
  | some r => r.event_value
  | none => 0

/-- Shallow embedding of
data_as_bdf["event_value"].add(simplify_index(v)["event_value"], fill_value=0,
level="event_start"): the level-based alignment requires the flat operand's
event_start labels to be unique and raises NotImplementedError
(Index._join_level on a non-unique index) when the simplified frame v holds
more than one row at some event_start.  When the labels are unique, the
summed series is assigned back into the accumulator frame's column, so the
row set (index) of the accumulator is kept; each of its rows gains v's value
at the same event_start, a missing value counting as 0. -/
def addAligned (acc v : List AggRow) : Except String (List AggRow) :=
  if (v.map (fun r => r.event_start)).Nodup then
    Except.ok (acc.map (fun r =>
      ⟨r.event_start, r.source, r.event_value + valueAt v r.event_start⟩))
  else
    Except.error "NotImplementedError"

/-- Combination loop of aggregate_values: frames are combined left to right,
an empty accumulator being replaced by the next frame and an empty frame
being skipped; a NotImplementedError raised by the aligned add propagates to
the caller. -/
def aggLoop : List AggRow → List (List AggRow) → Except String (List AggRow)
  | acc, [] => Except.ok acc
  | acc, v :: rest =>
    if acc = [] then aggLoop v rest
    else if v ≠ [] then
      match addAligned acc v with
      | Except.error e => Except.error e
      | Except.ok acc2 => aggLoop acc2 rest
    else aggLoop acc rest

/-- Shallow embedding of aggregate_values: a single-entry mapping is
returned as is (before any warning logic or pandas arithmetic); otherwise
the frames are combined by aggLoop, whose aligned add can raise. -/
def aggregate_values (frames : List (List AggRow)) :
    Except String (List AggRow) :=
  if frames.length = 1 then Except.ok (frames.headD [])
  else aggLoop [] frames

/-- Shallow embedding of the diagnostic warnings of aggregate_values: true
exactly when at least one logger.warning call fires.  With a single entry in
the input mapping the function returns before any warning logic runs. -/
def aggWarns (frames : List (List AggRow)) : Bool :=
  if frames.length = 1 then false
  else
    frames.any (fun f => decide (¬ uniqueBeliefsPerEventPerSource f)) ||
      frames.any (fun f => decide (1 < (sourcesOf f).length)) ||
      decide (1 < (dedupBy id (frames.flatMap sourcesOf)).length)

/-!
Demo-window translation: convert_query_window_for_demo.
-/

/-- Shallow embedding of a calendar date; the time of day plays no role in
the leap-day behaviour of convert_query_window_for_demo. -/
structure SimpleDate where
  year : Nat
  month : Nat
  day : Nat
deriving DecidableEq

/-- Gregorian leap-year rule, as implemented by Python datetime. -/
def isLeap (y : Nat) : Prop :=
  (y % 4 = 0 ∧ y % 100 ≠ 0) ∨ y % 400 = 0

instance (y : Nat) : Decidable (isLeap y) := by
  unfold isLeap; infer_instance

/-- Number of days of a month. -/
def daysInMonth (y m : Nat) : Nat :=
  if m = 2 then (if isLeap y then 29 else 28)
  else if m = 4 ∨ m = 6 ∨ m = 9 ∨ m = 11 then 30
  else 31

/-- Valid calendar date. -/
def validDate (d : SimpleDate) : Prop :=
  1 ≤ d.month ∧ d.month ≤ 12 ∧ 1 ≤ d.day ∧ d.day ≤ daysInMonth d.year d.month

instance (d : SimpleDate) : Decidable (validDate d) := by
  unfold validDate; infer_instance

/-- Shallow embedding of datetime.replace(year=y): fails exactly when the
day is out of range for the month in the new year (a leap day moved to a
non-leap year), the ValueError the Python code catches by message. -/
def replaceYear (d : SimpleDate) (y : Nat) : Option SimpleDate :=
  if d.day ≤ daysInMonth y d.month then some ⟨y, d.month, d.day⟩ else none

/-- One day earlier (query_window[0] - timedelta(days=1)). -/
def subOneDay (d : SimpleDate) : SimpleDate :=
  if 1 < d.day then ⟨d.year, d.month, d.day - 1⟩
  else if 1 < d.month then ⟨d.year, d.month - 1, daysInMonth d.year (d.month - 1)⟩
  else ⟨d.year - 1, 12, 31⟩

/-- One day later (query_window[-1] + timedelta(days=1)). -/
def addOneDay (d : SimpleDate) : SimpleDate :=
  if d.day < daysInMonth d.year d.month then ⟨d.year, d.month, d.day + 1⟩
  else if d.month < 12 then ⟨d.year, d.month + 1, 1⟩
  else ⟨d.year + 1, 1, 1⟩

/-- Strict calendar order. -/
def dateLt (a b : SimpleDate) : Prop :=
  a.year < b.year ∨
    (a.year = b.year ∧ (a.month < b.month ∨ (a.month = b.month ∧ a.day < b.day)))

instance (a b : SimpleDate) : Decidable (dateLt a b) := by
  unfold dateLt; infer_instance

/-- Calendar order. -/
def dateLe (a b : SimpleDate) : Prop :=
  a.year < b.year ∨
    (a.year = b.year ∧ (a.month < b.month ∨ (a.month = b.month ∧ a.day ≤ b.day)))

instance (a b : SimpleDate) : Decidable (dateLe a b) := by
  unfold dateLe; infer_instance

/-- Shallow embedding of convert_query_window_for_demo: with no configured
demo year the window is returned unchanged; otherwise each bound is shifted
onto the demo year, a bound whose shift lands on a nonexistent date (leap
day) is first moved one day outward, and the bounds are swapped when the
shift inverted their order.  The result is none only if a shifted bound is
invalid even after the one-day expansion, which convert_demo_total below
proves impossible. -/
def convert_query_window_for_demo (demoYear : Option Nat)
    (w : SimpleDate × SimpleDate) : Option (SimpleDate × SimpleDate) :=
  match demoYear, w with
  | none, w => some w
  | some y, (ws, we) =>
    match (match replaceYear ws y with
        | some a => some a
        | none => replaceYear (subOneDay ws) y),
      (match replaceYear we y with
        | some a => some a
        | none => replaceYear (addOneDay we) y) with
    | some s, some e => some (if dateLt e s then (e, s) else (s, e))
    | _, _ => none

/-!
Helper lemmas about the deduplication and sorting building blocks.
-/

theorem dedupBy_sublist {α κ : Type} [DecidableEq κ] (key : α → κ) (l : List α) :
    (dedupBy key l).Sublist l := by
  induction l with
  | nil => simp [dedupBy]
  | cons a rest ih =>
    exact List.Sublist.cons₂ a ((List.filter_sublist _).trans ih)

theorem mem_of_mem_dedupBy {α κ : Type} [DecidableEq κ] {key : α → κ}
    {l : List α} {x : α} (h : x ∈ dedupBy key l) : x ∈ l :=
  (dedupBy_sublist key l).subset h

theorem mem_dedupBy_id {α : Type} [DecidableEq α] (l : List α) (x : α) :
    x ∈ dedupBy id l ↔ x ∈ l := by
  constructor
  · exact mem_of_mem_dedupBy
  · intro hx
    induction l with
    | nil => simp at hx
    | cons a rest ih =>
      rcases List.mem_cons.mp hx with h | h
      · exact h ▸ List.mem_cons_self _ _
      · by_cases hk : x = a
        · exact hk ▸ List.mem_cons_self _ _
        · exact List.mem_cons_of_mem _ (List.mem_filter.mpr ⟨ih h, by simp [hk]⟩)

theorem dedupBy_covers {α κ : Type} [DecidableEq κ] (key : α → κ) {l : List α}
    {y : α} (hy : y ∈ l) : ∃ x ∈ dedupBy key l, key x = key y := by
  induction l with
  | nil => simp at hy
  | cons a rest ih =>
    by_cases hk : key y = key a
    · exact ⟨a, List.mem_cons_self _ _, hk.symm⟩
    · rcases List.mem_cons.mp hy with h | h
      · exact absurd (congrArg key h) hk
      · rcases ih h with ⟨x, hx, hkey⟩
        by_cases hxa : key x = key a
        · exact absurd (hkey.symm.trans hxa) hk
        · exact ⟨x, List.mem_cons_of_mem _ (List.mem_filter.mpr ⟨hx, by simp [hxa]⟩),
            hkey⟩

theorem dedupBy_min {α κ : Type} [DecidableEq κ] (key : α → κ)
    {R : α → α → Prop} {l : List α} (hp : l.Pairwise R) {x y : α}
    (hx : x ∈ dedupBy key l) (hy : y ∈ l) (hk : key x = key y) : x = y ∨ R x y := by
  induction l with
  | nil => simp [dedupBy] at hx
  | cons a rest ih =>
    simp only [dedupBy, List.mem_cons] at hx
    rcases hx with rfl | hx
    · rcases List.mem_cons.mp hy with rfl | hy
      · exact Or.inl rfl
      · exact Or.inr ((List.pairwise_cons.mp hp).1 y hy)
    · have hx2 := List.mem_filter.mp hx
      have hxa : key x ≠ key a := by simpa using hx2.2
      rcases List.mem_cons.mp hy with rfl | hy
      · exact absurd hk hxa
      · exact ih (List.pairwise_cons.mp hp).2 hx2.1 hy

theorem dedupBy_key_unique {α κ : Type} [DecidableEq κ] (key : α → κ)
    {l : List α} {x y : α} (hx : x ∈ dedupBy key l) (hy : y ∈ dedupBy key l)
    (hk : key x = key y) : x = y := by
  induction l with
  | nil => simp [dedupBy] at hx
  | cons a rest ih =>
    simp only [dedupBy, List.mem_cons] at hx hy
    rcases hx with rfl | hx <;> rcases hy with rfl | hy
    · rfl
    · exact absurd hk.symm (by simpa using (List.mem_filter.mp hy).2)
    · exact absurd hk (by simpa using (List.mem_filter.mp hx).2)
    · exact ih (List.mem_filter.mp hx).1 (List.mem_filter.mp hy).1

theorem idxLe_event_le {res : Int} {a b : Belief} (h : idxLe res a b) :
    a.event_start ≤ b.event_start := by
  unfold idxLe at h; omega

theorem withinDedup_sorted (res : Int) (l : List Belief) :
    (withinDedup res l).Pairwise (fun a b => a.event_start ≤ b.event_start) :=
  List.Pairwise.sublist (dedupBy_sublist dupKey _)
    ((List.sorted_insertionSort (idxLe res) l).imp (fun h => idxLe_event_le h))

theorem mem_withinDedup {res : Int} {l : List Belief} {x : Belief}
    (h : x ∈ withinDedup res l) : x ∈ l :=
  (List.perm_insertionSort (idxLe res) l).subset (mem_of_mem_dedupBy h)

theorem groupOf_key {res : Int} {l : List Belief} {k : Int × Nat} {x : Belief}
    (h : x ∈ groupOf res l k) : (beliefTime res x, x.source) = k ∧ x ∈ l := by
  have h2 := List.mem_filter.mp h
  exact ⟨by simpa using h2.2, h2.1⟩

theorem groupOf_sorted {res : Int} {l : List Belief} (k : Int × Nat)
    (h : l.Pairwise (fun a b => a.event_start ≤ b.event_start)) :
    (groupOf res l k).Pairwise (fun a b => a.event_start ≤ b.event_start) :=
  List.Pairwise.filter _ h

theorem getLastD_mem {α : Type} : ∀ {l : List α}, l ≠ [] → ∀ d : α, l.getLastD d ∈ l
  | [], h, _ => absurd rfl h
  | [a], _, d => by simp [List.getLastD]
  | a :: b :: t, _, d => by
    rw [List.getLastD_cons]
    exact List.mem_cons_of_mem _ (getLastD_mem (by simp) a)

theorem sorted_le_getLastD :
    ∀ {g : List Belief}, g.Pairwise (fun a b => a.event_start ≤ b.event_start) →
      ∀ {r : Belief}, r ∈ g → ∀ d : Belief,
        r.event_start ≤ (g.getLastD d).event_start := by
  intro g
  induction g with
  | nil => intro _ r hr; simp at hr
  | cons a rest ih =>
    intro hp r hr d
    rw [List.getLastD_cons]
    rcases rest with _ | ⟨b, t⟩
    · rcases List.mem_cons.mp hr with rfl | hr
      · simp [List.getLastD]
      · simp at hr
    · rcases List.mem_cons.mp hr with rfl | hr
      · exact (List.pairwise_cons.mp hp).1 _ (getLastD_mem (by simp) r)
      · exact ih (List.pairwise_cons.mp hp).2 hr a

/-!
Claim C10: single-entry aggregation is the identity and emits no warning.
-/

/-- C10: for an input mapping with exactly one sensor entry, aggregate_values
returns that single frame unchanged (before any warning logic or pandas
arithmetic) and emits no multi-source warning, even when the frame holds
beliefs from several distinct sources. -/
theorem c10_single_frame_identity (f : List AggRow) :
    aggregate_values [f] = Except.ok f ∧ aggWarns [f] = false := by
  constructor
  · simp [aggregate_values]
  · simp [aggWarns]

/-!
Shared characterization of the two-frame combination loop.
-/

theorem map_add_valueAt_nil (f1 : List AggRow) :
    f1.map (fun r =>
      (⟨r.event_start, r.source, r.event_value + valueAt [] r.event_start⟩ : AggRow)) =
      f1 := by
  have he : (fun r : AggRow =>
      (⟨r.event_start, r.source, r.event_value + valueAt [] r.event_start⟩ : AggRow)) =
        id := by
    funext r
    simp [valueAt]
  rw [he, List.map_id]

theorem aggregate_two_frames (f1 f2 : List AggRow) (h1 : f1 ≠ []) :
    aggregate_values [f1, f2] =
      if (f2.map (fun r => r.event_start)).Nodup then
        Except.ok (f1.map (fun r =>
          ⟨r.event_start, r.source, r.event_value + valueAt f2 r.event_start⟩))
      else Except.error "NotImplementedError" := by
  have step : aggregate_values [f1, f2] = aggLoop f1 [f2] := rfl
  rw [step]
  by_cases hnod : (f2.map (fun r => r.event_start)).Nodup
  · rw [if_pos hnod]
    by_cases hne2 : f2 = []
    · subst hne2
      simp only [aggLoop]
      rw [if_neg h1, if_neg (by simp)]
      rw [map_add_valueAt_nil]
    · simp only [aggLoop]
      rw [if_neg h1, if_pos hne2]
      unfold addAligned
      rw [if_pos hnod]
  · rw [if_neg hnod]
    have hne2 : f2 ≠ [] := by
      intro h
      subst h
      simp at hnod
    simp only [aggLoop]
    rw [if_neg h1, if_pos hne2]
    unfold addAligned
    rw [if_neg hnod]

/-!
Claim C7: multi-source aggregation warnings and the aligned-add error.
-/

theorem one_lt_length_of_mem_ne {α : Type} {l : List α} {x y : α}
    (hx : x ∈ l) (hy : y ∈ l) (hne : x ≠ y) : 1 < l.length := by
  rcases l with _ | ⟨a, _ | ⟨b, u⟩⟩
  · simp at hx
  · simp at hx hy
    exact absurd (hx.trans hy.symm) hne
  · simp [List.length_cons]

/-- C7 counterexample: the claim fails on both of its conjuncts.  First, a
single-entry input whose one frame carries two distinct source ids (so more
than one distinct source id appears across the whole input set) emits no
warning: aggregate_values returns before any warning logic runs.  Second,
with two entries whose second frame holds two sources for the same event,
the aggregator does not return a combined result: the level-aligned add
raises NotImplementedError on the non-unique event_start labels. -/
theorem c7_counterexample :
    (1 < (dedupBy id ([[(⟨0, 0, 3⟩ : AggRow), ⟨0, 1, 4⟩]].flatMap sourcesOf)).length ∧
        aggWarns [[⟨0, 0, 3⟩, ⟨0, 1, 4⟩]] = false) ∧
      aggregate_values [[(⟨0, 0, 10⟩ : AggRow)], [⟨0, 0, 3⟩, ⟨0, 1, 4⟩]] =
        Except.error "NotImplementedError" :=
  ⟨by decide, rfl⟩

/-- C7 amended: when the input mapping has at least two entries, the
aggregator logs a diagnostic warning whenever more than one distinct source
id appears across the whole input set or some input frame has two sources
for the same event (single-entry inputs are returned before the warning
logic and never warn); but it does not always return a combined result: the
aligned add raises NotImplementedError when a frame added to a nonempty
accumulator holds more than one row at some event_start, as it does for a
two-frame input whose second frame repeats an event_start. -/
theorem c7_amended :
    (∀ frames : List (List AggRow), 2 ≤ frames.length →
      (1 < (dedupBy id (frames.flatMap sourcesOf)).length ∨
        ∃ f ∈ frames, ∃ r1 ∈ f, ∃ r2 ∈ f,
          r1.event_start = r2.event_start ∧ r1.source ≠ r2.source) →
      aggWarns frames = true) ∧
      (∀ f1 f2 : List AggRow, f1 ≠ [] →
        ¬ (f2.map (fun r => r.event_start)).Nodup →
        aggregate_values [f1, f2] = Except.error "NotImplementedError") := by
  constructor
  · intro frames h2 hcond
    have hne : frames.length ≠ 1 := by omega
    unfold aggWarns
    rw [if_neg hne]
    simp only [Bool.or_eq_true, List.any_eq_true, decide_eq_true_eq]
    rcases hcond with h | ⟨f, hf, r1, h1, r2, hr2, _, hnes⟩
    · exact Or.inr h
    · refine Or.inl (Or.inr ⟨f, hf, ?_⟩)
      have hs1 : r1.source ∈ sourcesOf f := by
        rw [sourcesOf, mem_dedupBy_id]
        exact List.mem_map.mpr ⟨r1, h1, rfl⟩
      have hs2 : r2.source ∈ sourcesOf f := by
        rw [sourcesOf, mem_dedupBy_id]
        exact List.mem_map.mpr ⟨r2, hr2, rfl⟩
      exact one_lt_length_of_mem_ne hs1 hs2 hnes
  · intro f1 f2 h1 hnod
    rw [aggregate_two_frames f1 f2 h1, if_neg hnod]

/-- C7 witness: two single-source frames with different sources do warn, and
a second frame with two sources at one event makes the combination raise. -/
theorem c7_witness :
    aggWarns [[(⟨0, 0, 3⟩ : AggRow)], [⟨0, 1, 4⟩]] = true ∧
      aggregate_values [[(⟨0, 0, 10⟩ : AggRow)], [⟨0, 0, 3⟩, ⟨0, 1, 4⟩]] =
        Except.error "NotImplementedError" :=
  ⟨c7_amended.1 [[⟨0, 0, 3⟩], [⟨0, 1, 4⟩]] (by decide) (Or.inl (by decide)),
    c7_amended.2 [⟨0, 0, 10⟩] [⟨0, 0, 3⟩, ⟨0, 1, 4⟩] (by decide) (by decide)⟩

/-!
Claim C5: aggregation sums values aligned on event_start.
-/

/-- C5 counterexample: frames [[(e=0,v=10)]] and [[(e=0,v=5),(e=1,v=7)]].
The first frame has no row at event 1, so by the claim the combined result
should hold the second frame's value 7 there; in fact the summed column is
assigned back into the first frame, whose row set is kept, so the result has
no row at event 1 at all. -/
theorem c5_counterexample :
    aggregate_values [[(⟨0, 0, 10⟩ : AggRow)], [⟨0, 0, 5⟩, ⟨1, 0, 7⟩]] =
        Except.ok [⟨0, 0, 15⟩] ∧
      ¬ ∃ r ∈ [(⟨0, 0, 15⟩ : AggRow)], r.event_start = 1 :=
  ⟨rfl, by decide⟩

/-- C5 amended: for a two-frame input whose first frame is nonempty, the
combination requires the second frame's event_start labels to be unique
(otherwise the aligned add raises NotImplementedError); when they are, the
aggregate keeps exactly the first frame's rows, each value summed with the
second frame's value at the same event_start, a missing value counting as
zero; events present only in the second frame are dropped. -/
theorem c5_amended (f1 f2 : List AggRow) (h1 : f1 ≠ []) :
    (¬ (f2.map (fun r => r.event_start)).Nodup →
      aggregate_values [f1, f2] = Except.error "NotImplementedError") ∧
      ((f2.map (fun r => r.event_start)).Nodup →
        aggregate_values [f1, f2] =
          Except.ok (f1.map (fun r =>
            ⟨r.event_start, r.source, r.event_value + valueAt f2 r.event_start⟩))) := by
  constructor
  · intro hnod
    rw [aggregate_two_frames f1 f2 h1, if_neg hnod]
  · intro hnod
    rw [aggregate_two_frames f1 f2 h1, if_pos hnod]

/-- C5 witness: values 10 and 5 at the same event_start combine to 15. -/
theorem c5_witness :
    aggregate_values [[(⟨0, 0, 10⟩ : AggRow)], [⟨0, 0, 5⟩]] =
      Except.ok [⟨0, 0, 15⟩] := by
  rw [(c5_amended [⟨0, 0, 10⟩] [⟨0, 0, 5⟩] (by decide)).2 (by decide)]
  rfl

/-!
Claim C3: half-open event-window filtering.
-/

/-- C3 counterexample: the claim asserts half-open windows on every
data-retrieval path, but the pickled-frame path of get_data_for_assets masks
with (index >= start) and (index <= end): with window (0, 5) a row whose
index equals the window end 5 is included, not excluded. -/
theorem c3_counterexample :
    (⟨5, 1⟩ : PickleRow) ∈ get_data_window_filter 0 5 [⟨5, 1⟩] := by decide

/-- C3 amended: the query_time_series_data slicing is half-open (event_start
equal to the window end is excluded, equal to the window start is included
whenever the window is nonempty), while the get_data_for_assets pickle path
uses a closed window that also includes rows at the window end. -/
theorem c3_amended :
    (∀ (s e : Int) (f : List EventRow) (r : EventRow),
        r.event_start = e → r ∉ sliceQueryWindow (some s) (some e) f) ∧
      (∀ (s e : Int) (f : List EventRow) (r : EventRow),
        r ∈ f → r.event_start = s → s < e → r ∈ sliceQueryWindow (some s) (some e) f) ∧
      (∀ (a b : Int) (f : List PickleRow) (r : PickleRow),
        r ∈ f → r.idx = b → a ≤ b → r ∈ get_data_window_filter a b f) := by
  refine ⟨?_, ?_, ?_⟩
  · intro s e f r hre hmem
    have h2 := (List.mem_filter.mp hmem).2
    simp only [decide_eq_true_eq] at h2
    omega
  · intro s e f r hrf hrs hlt
    unfold sliceQueryWindow
    refine List.mem_filter.mpr ⟨List.mem_filter.mpr ⟨hrf, ?_⟩, ?_⟩
    · simp only [decide_eq_true_eq]; omega
    · simp only [decide_eq_true_eq]; omega
  · intro a b f r hrf hrb hab
    refine List.mem_filter.mpr ⟨hrf, ?_⟩
    simp only [decide_eq_true_eq]
    omega

/-- C3 witness: with window (0, 5) a row at event_start 5 is dropped and a
row at event_start 0 is kept on the query_time_series_data path. -/
theorem c3_witness :
    (⟨5, 0, 0, 1⟩ : EventRow) ∉ sliceQueryWindow (some 0) (some 5) [⟨5, 0, 0, 1⟩] ∧
      (⟨0, 0, 0, 1⟩ : EventRow) ∈ sliceQueryWindow (some 0) (some 5) [⟨0, 0, 0, 1⟩] :=
  ⟨c3_amended.1 0 5 _ _ rfl,
    c3_amended.2.1 0 5 _ _ (by decide) rfl (by decide)⟩

/-!
Claim C8: non-integral resampling ratios fail with UnsupportedResolution.
-/

/-- C8: resampling to a target resolution that neither evenly divides nor is
evenly divided by the native resolution fails with UnsupportedResolution
(resample_events is modelled from the spec, section 4.3). -/
theorem c8_unsupported_resolution (native target : Int) (f : List EventRow)
    (hne : target ≠ native) (h1 : target % native ≠ 0) (h2 : native % target ≠ 0) :
    resample_events native target f = Except.error "UnsupportedResolution" := by
  unfold resample_events
  split_ifs with a b c
  · exact absurd a hne
  · exact absurd b.2.2 h1
  · exact absurd c.2.2 h2
  · rfl

/-- C8 witness: a 15-minute sensor resampled to a 10-minute target raises
UnsupportedResolution. -/
theorem c8_witness :
    resample_events 15 10 [] = Except.error "UnsupportedResolution" :=
  c8_unsupported_resolution 15 10 [] (by decide) (by decide) (by decide)

/-!
Claim C2: most-recent-belief selection per event_start.
-/

/-- C2: every row selected by the most-recent block carries the smallest
belief horizon among the candidate rows of its event_start (regardless of
source), every candidate event_start stays represented by exactly one
selected row, and in particular beliefs at horizons 120 min (value 100) and
60 min (value 110) about the same event select value 110. -/
theorem c2_most_recent_selection :
    (∀ (l : List RawRow) (r : RawRow), r ∈ selectMostRecent l →
        ∀ q ∈ l, q.datetime = r.datetime → r.horizon ≤ q.horizon) ∧
      (∀ (l : List RawRow) (q : RawRow), q ∈ l →
        ∃ r ∈ selectMostRecent l, r.datetime = q.datetime) ∧
      (∀ (l : List RawRow) (r q : RawRow), r ∈ selectMostRecent l →
        q ∈ selectMostRecent l → r.datetime = q.datetime → r = q) ∧
      selectMostRecent [⟨"a", 0, 100, 120, 1⟩, ⟨"a", 0, 110, 60, 1⟩] =
        [⟨"a", 0, 110, 60, 1⟩] := by
  refine ⟨?_, ?_, ?_, by decide⟩
  · intro l r hr q hq hdt
    have hr2 : r ∈ dedupBy (fun r => r.datetime) (List.insertionSort hLe l) :=
      (List.perm_insertionSort dtLe _).subset hr
    have hq2 : q ∈ List.insertionSort hLe l :=
      (List.perm_insertionSort hLe l).symm.subset hq
    have hmin := dedupBy_min (fun r : RawRow => r.datetime)
      (List.sorted_insertionSort hLe l) hr2 hq2 hdt.symm
    rcases hmin with rfl | hmin
    · exact le_refl _
    · exact hmin
  · intro l q hq
    have hq2 : q ∈ List.insertionSort hLe l :=
      (List.perm_insertionSort hLe l).symm.subset hq
    rcases dedupBy_covers (fun r : RawRow => r.datetime) hq2 with ⟨r, hr, hk⟩
    exact ⟨r, (List.perm_insertionSort dtLe _).symm.subset hr, hk⟩
  · intro l r q hr hq hdt
    have hr2 : r ∈ dedupBy (fun r => r.datetime) (List.insertionSort hLe l) :=
      (List.perm_insertionSort dtLe _).subset hr
    have hq2 : q ∈ dedupBy (fun r => r.datetime) (List.insertionSort hLe l) :=
      (List.perm_insertionSort dtLe _).subset hq
    exact dedupBy_key_unique (fun r : RawRow => r.datetime) hr2 hq2 hdt

/-- C2 witness: in the two-horizon example the selected row is the one with
the smaller horizon, and its horizon bounds the other candidate's. -/
theorem c2_witness :
    (⟨"a", 0, 110, 60, 1⟩ : RawRow) ∈
        selectMostRecent [⟨"a", 0, 100, 120, 1⟩, ⟨"a", 0, 110, 60, 1⟩] ∧
      (60 : Int) ≤ 120 :=
  ⟨by decide,
    c2_most_recent_selection.1 [⟨"a", 0, 100, 120, 1⟩, ⟨"a", 0, 110, 60, 1⟩]
      ⟨"a", 0, 110, 60, 1⟩ (by decide) ⟨"a", 0, 100, 120, 1⟩ (by decide) (by decide)⟩

/-!
Claim C6: an unknown sensor name aborts the whole multi-sensor query.
-/

theorem queryOneSensor_unknown (sensors : List Sensor) (rows : List RawRow)
    (resolution : Option Int) (wStart wEnd : Option Int) (n : String)
    (h : sensors.filter (fun s => s.name = n) = []) :
    queryOneSensor sensors rows resolution wStart wEnd n =
      Except.error ("Unknown sensor: " ++ n) := by
  unfold queryOneSensor find_sensor_by_name
  rw [h]

theorem queryLoop_aborts (sensors : List Sensor) (rows : List RawRow)
    (resolution : Option Int) (wStart wEnd : Option Int) :
    ∀ (names : List String) (acc : List (String × List EventRow)),
      (∃ n ∈ names, sensors.filter (fun s => s.name = n) = []) →
      ∃ msg, queryLoop sensors rows resolution wStart wEnd acc names =
        Except.error msg := by
  intro names
  induction names with
  | nil =>
    intro acc h
    simp at h
  | cons n rest ih =>
    intro acc h
    cases hq : queryOneSensor sensors rows resolution wStart wEnd n with
    | error e =>
      exact ⟨e, by simp [queryLoop, hq]⟩
    | ok bdf =>
      rcases h with ⟨m, hm, hflt⟩
      rcases List.mem_cons.mp hm with rfl | hmrest
      · rw [queryOneSensor_unknown sensors rows resolution wStart wEnd m hflt] at hq
        exact absurd hq (by simp)
      · rcases ih (acc ++ [(n, bdf)]) ⟨m, hmrest, hflt⟩ with ⟨msg, hmsg⟩
        exact ⟨msg, by simp [queryLoop, hq, hmsg]⟩

/-- C6 counterexample: with a store knowing only sensor "a", querying the
names ["a", "b"] does not return a partial mapping holding the result for
"a" together with a per-sensor failure record; the unknown sensor "b" makes
the whole query raise, so the caller receives no results at all. -/
theorem c6_counterexample :
    query_time_series_data [⟨"a", 15⟩] [] none none none ["a", "b"] =
      Except.error "Unknown sensor: b" := rfl

/-- C6 amended: referencing an unknown sensor name raises an unhandled
exception inside the per-sensor loop of query_time_series_data, aborting the
sibling sensors' sub-queries: whenever any requested name has no sensor, the
whole query returns an error and no partial mapping. -/
theorem c6_unknown_sensor_aborts (sensors : List Sensor) (rows : List RawRow)
    (resolution : Option Int) (wStart wEnd : Option Int) (names : List String)
    (h : ∃ n ∈ names, sensors.filter (fun s => s.name = n) = []) :
    ∃ msg, query_time_series_data sensors rows resolution wStart wEnd names =
      Except.error msg :=
  queryLoop_aborts sensors rows resolution wStart wEnd names [] h

/-- C6 witness: the amended theorem applied to the concrete two-name query. -/
theorem c6_witness :
    ∃ msg, query_time_series_data [⟨"a", 15⟩] [] none none none ["a", "b"] =
      Except.error msg :=
  c6_unknown_sensor_aborts [⟨"a", 15⟩] [] none none none ["a", "b"]
    ⟨"b", by decide, by decide⟩

/-!
Claim C9: demo-window translation is total and returns an ordered window.
-/

theorem daysInMonth_ge (y m : Nat) : 28 ≤ daysInMonth y m := by
  unfold daysInMonth
  split_ifs <;> omega

theorem daysInMonth_close (y1 y2 m : Nat) : daysInMonth y1 m ≤ daysInMonth y2 m + 1 := by
  unfold daysInMonth
  split_ifs <;> omega

theorem dateLe_of_not_lt {a b : SimpleDate} (h : ¬ dateLt b a) : dateLe a b := by
  unfold dateLt at h
  unfold dateLe
  omega

theorem dateLe_of_lt {a b : SimpleDate} (h : dateLt a b) : dateLe a b := by
  unfold dateLt at h
  unfold dateLe
  omega

theorem replaceYear_start_total (s : SimpleDate) (y : Nat) (hs : validDate s) :
    ∃ s1, (match replaceYear s y with
      | some a => some a
      | none => replaceYear (subOneDay s) y) = some s1 := by
  cases hrep : replaceYear s y with
  | some a => exact ⟨a, rfl⟩
  | none =>
    have hgt : daysInMonth y s.month < s.day := by
      unfold replaceYear at hrep
      by_contra hc
      rw [if_pos (by omega)] at hrep
      exact Option.noConfusion hrep
    have h28 := daysInMonth_ge y s.month
    have hle := daysInMonth_close s.year y s.month
    have hval := hs.2.2.2
    have hday : 1 < s.day := by omega
    unfold subOneDay
    rw [if_pos hday]
    unfold replaceYear
    rw [if_pos (by simp only []; omega)]
    exact ⟨_, rfl⟩

theorem replaceYear_end_total (e : SimpleDate) (y : Nat) (he : validDate e) :
    ∃ e1, (match replaceYear e y with
      | some a => some a
      | none => replaceYear (addOneDay e) y) = some e1 := by
  cases hrep : replaceYear e y with
  | some a => exact ⟨a, rfl⟩
  | none =>
    have hgt : daysInMonth y e.month < e.day := by
      unfold replaceYear at hrep
      by_contra hc
      rw [if_pos (by omega)] at hrep
      exact Option.noConfusion hrep
    have h28 := daysInMonth_ge y e.month
    have hle := daysInMonth_close e.year y e.month
    have hval := he.2.2.2
    have hnotlt : ¬ e.day < daysInMonth e.year e.month := by omega
    unfold addOneDay
    rw [if_neg hnotlt]
    by_cases hm : e.month < 12
    · rw [if_pos hm]
      unfold replaceYear
      rw [if_pos (by have := daysInMonth_ge y (e.month + 1); simp only []; omega)]
      exact ⟨_, rfl⟩
    · rw [if_neg hm]
      unfold replaceYear
      rw [if_pos (by have := daysInMonth_ge y 1; simp only []; omega)]
      exact ⟨_, rfl⟩

/-- C9: demo-window translation never fails with a date error: for every
valid query window and configured demo year, a bound whose shift onto the
demo year would land on a nonexistent date (a leap day) is expanded one day
outward instead, and the returned window always satisfies start at or before
end (bounds are swapped if the shift inverted their order). -/
theorem c9_demo_window_total (y : Nat) (s e : SimpleDate)
    (hs : validDate s) (he : validDate e) :
    ∃ s2 e2, convert_query_window_for_demo (some y) (s, e) = some (s2, e2) ∧
      dateLe s2 e2 := by
  rcases replaceYear_start_total s y hs with ⟨s1, hs1⟩
  rcases replaceYear_end_total e y he with ⟨e1, he1⟩
  refine ⟨if dateLt e1 s1 then e1 else s1, if dateLt e1 s1 then s1 else e1, ?_, ?_⟩
  · have hred : convert_query_window_for_demo (some y) (s, e) =
        match (match replaceYear s y with
            | some a => some a
            | none => replaceYear (subOneDay s) y),
          (match replaceYear e y with
            | some a => some a
            | none => replaceYear (addOneDay e) y) with
        | some a, some b => some (if dateLt b a then (b, a) else (a, b))
        | _, _ => none := rfl
    rw [hred, hs1, he1]
    show some (if dateLt e1 s1 then (e1, s1) else (s1, e1)) =
      some (if dateLt e1 s1 then e1 else s1, if dateLt e1 s1 then s1 else e1)
    by_cases hlt : dateLt e1 s1
    · rw [if_pos hlt, if_pos hlt, if_pos hlt]
    · rw [if_neg hlt, if_neg hlt, if_neg hlt]
  · by_cases hlt : dateLt e1 s1
    · rw [if_pos hlt, if_pos hlt]
      exact dateLe_of_lt hlt
    · rw [if_neg hlt, if_neg hlt]
      exact dateLe_of_not_lt hlt

/-- C9 witness: translating the leap-day window 2024-02-29 onto the
non-leap demo year 2015 expands the window by one day at each bound (to
2015-02-28 and 2015-03-01) instead of raising, and the result is ordered. -/
theorem c9_witness :
    convert_query_window_for_demo (some 2015) (⟨2024, 2, 29⟩, ⟨2024, 2, 29⟩) =
        some (⟨2015, 2, 28⟩, ⟨2015, 3, 1⟩) ∧
      ∃ s2 e2,
        convert_query_window_for_demo (some 2015) (⟨2024, 2, 29⟩, ⟨2024, 2, 29⟩) =
          some (s2, e2) ∧ dateLe s2 e2 :=
  ⟨by decide, c9_demo_window_total 2015 ⟨2024, 2, 29⟩ ⟨2024, 2, 29⟩ (by decide) (by decide)⟩

/-!
Claim C4: independent deduplication of the ex-ante and ex-post partitions.
-/

theorem mem_dropVsDb_sub {db : List Belief} {res : Int} {g : List Belief}
    {x : Belief} (h : x ∈ dropVsDb db res g) : x ∈ g := by
  cases g with
  | nil => simp [dropVsDb] at h
  | cons r0 rest => exact (List.mem_filter.mp h).1

theorem mem_homogDrop_sub {db : List Belief} {res : Int} {l : List Belief}
    {x : Belief} (h : x ∈ homogDrop db res l) : x ∈ l := by
  unfold homogDrop at h
  rcases List.mem_flatMap.mp h with ⟨k, _, hx⟩
  exact mem_withinDedup (groupOf_key (mem_dropVsDb_sub hx)).2

/-- C4: a batch holding both ex-ante (horizon > 0) and ex-post
(horizon <= 0) rows is partitioned; each partition is deduplicated
independently by the homogeneous path and the results are concatenated, and
an ex-post row belongs to the result exactly when it survives deduplication
of the ex-post partition alone, independently of any ex-ante rows. -/
theorem c4_partition (db : List Belief) (res : Int) (B : List Belief)
    (hA : B.filter (fun r => 0 < r.belief_horizon) ≠ [])
    (hP : B.filter (fun r => r.belief_horizon ≤ 0) ≠ []) :
    drop_unchanged_beliefs db res B =
        homogDrop db res (B.filter (fun r => 0 < r.belief_horizon)) ++
          homogDrop db res (B.filter (fun r => r.belief_horizon ≤ 0)) ∧
      ∀ x : Belief, x.belief_horizon ≤ 0 →
        (x ∈ drop_unchanged_beliefs db res B ↔
          x ∈ homogDrop db res (B.filter (fun r => r.belief_horizon ≤ 0))) := by
  have hB : B ≠ [] := by
    intro h
    rw [h] at hA
    simp at hA
  have heq : drop_unchanged_beliefs db res B =
      homogDrop db res (B.filter (fun r => 0 < r.belief_horizon)) ++
        homogDrop db res (B.filter (fun r => r.belief_horizon ≤ 0)) := by
    unfold drop_unchanged_beliefs
    rw [if_neg hB, if_pos ⟨hA, hP⟩]
  refine ⟨heq, ?_⟩
  intro x hx
  rw [heq, List.mem_append]
  constructor
  · rintro (h | h)
    · have h2 := (List.mem_filter.mp (mem_homogDrop_sub h)).2
      simp only [decide_eq_true_eq] at h2
      omega
    · exact h
  · exact Or.inr

/-- C4 witness: with an empty store, a batch holding an ex-ante and an
ex-post belief of the same value about the same event keeps both rows; in
particular the ex-post row is not dropped for resembling the ex-ante one. -/
theorem c4_witness :
    drop_unchanged_beliefs [] 1 [⟨0, 2, 0, 5, 7⟩, ⟨0, 0, 0, 5, 7⟩] =
        homogDrop [] 1
            ([⟨0, 2, 0, 5, 7⟩, ⟨0, 0, 0, 5, 7⟩].filter (fun r => 0 < r.belief_horizon)) ++
          homogDrop [] 1
            ([⟨0, 2, 0, 5, 7⟩, ⟨0, 0, 0, 5, 7⟩].filter (fun r => r.belief_horizon ≤ 0)) ∧
      drop_unchanged_beliefs [] 1 [⟨0, 2, 0, 5, 7⟩, ⟨0, 0, 0, 5, 7⟩] =
        [⟨0, 2, 0, 5, 7⟩, ⟨0, 0, 0, 5, 7⟩] :=
  ⟨(c4_partition [] 1 [⟨0, 2, 0, 5, 7⟩, ⟨0, 0, 0, 5, 7⟩] (by decide) (by decide)).1,
    by decide⟩

/-!
Claim C1: idempotence of the write-path deduplication.
-/

/-- C1 counterexample: db holds (event 0, source 0, horizon 3, value 9); the
batch holds value 7 at horizon 2 and value 9 at horizon 1 about the same
event.  The first call keeps only the horizon-2 row (the horizon-1 value 9
is already the most recent stored belief); after persisting it, the second
call on the same batch returns the horizon-1 row (value 9 now differs from
the most recently stored value 7), not the empty set. -/
theorem c1_counterexample :
    drop_unchanged_beliefs
        ([⟨0, 3, 0, 5, 9⟩] ++
          drop_unchanged_beliefs [⟨0, 3, 0, 5, 9⟩] 1 [⟨0, 2, 0, 5, 7⟩, ⟨0, 1, 0, 5, 9⟩])
        1 [⟨0, 2, 0, 5, 7⟩, ⟨0, 1, 0, 5, 9⟩] ≠ [] := by decide

theorem mem_groupPrev {db : List Belief} {res : Int} {g : List Belief}
    {r0 d : Belief} :
    d ∈ groupPrev db res g r0 ↔
      d ∈ db ∧ d.source = r0.source ∧ signMatch r0 d ∧
        r0.event_start ≤ d.event_start ∧
        d.event_start + res ≤ (g.getLastD r0).event_start + res ∧
        beliefTime res d ≤ beliefTime res r0 := by
  unfold groupPrev searchPrev
  rw [List.mem_filter]
  simp only [decide_eq_true_eq]

theorem mem_mostRecentRows {res : Int} {l : List Belief} {d : Belief} :
    d ∈ mostRecentRows res l ↔
      d ∈ l ∧ ∀ d2 ∈ l, d2.event_start = d.event_start →
        beliefTime res d2 ≤ beliefTime res d := by
  unfold mostRecentRows
  rw [List.mem_filter]
  simp only [List.all_eq_true, decide_eq_true_eq]
  constructor
  · rintro ⟨h1, h2⟩
    exact ⟨h1, fun d2 hd2 he => (h2 d2 hd2).resolve_left (not_not.mpr he)⟩
  · rintro ⟨h1, h2⟩
    refine ⟨h1, fun d2 hd2 => ?_⟩
    by_cases he : d2.event_start = d.event_start
    · exact Or.inr (h2 d2 hd2 he)
    · exact Or.inl he

theorem mem_groupAfterDrop {db : List Belief} {res : Int} {g : List Belief}
    {r0 x : Belief} :
    x ∈ groupAfterDrop db res g r0 ↔
      x ∈ g ∧ ¬ dupKey x ∈ groupBidx db res g r0 := by
  unfold groupAfterDrop
  rw [List.mem_filter]
  simp only [decide_eq_true_eq]

theorem mem_dropVsDb_cons {db : List Belief} {res : Int} {r0 : Belief}
    {rest : List Belief} {x : Belief} :
    x ∈ dropVsDb db res (r0 :: rest) ↔
      x ∈ r0 :: rest ∧ ∃ w ∈ groupAfterDrop db res (r0 :: rest) r0,
        w.event_start = x.event_start ∧ w.source = x.source := by
  unfold dropVsDb
  rw [List.mem_filter]
  simp only [List.any_eq_true, decide_eq_true_eq]

/-- Core of the amended idempotence: a (belief_time, source) group whose
first-call survivors were all persisted into db2 (which extends db only by
first-call survivors) is emptied entirely by a second deduplication pass. -/
theorem dropVsDb_second_empty (db db2 : List Belief) (res : Int)
    (k : Int × Nat) (g : List Belief)
    (hgk : ∀ x ∈ g, (beliefTime res x, x.source) = k)
    (hsorted : g.Pairwise (fun a b => a.event_start ≤ b.event_start))
    (hhom : (∀ x ∈ g, 0 < x.belief_horizon) ∨ (∀ x ∈ g, x.belief_horizon ≤ 0))
    (hkeep : ∀ x ∈ dropVsDb db res g, x ∈ db2)
    (hdb : ∀ x ∈ db, x ∈ db2)
    (hnew : ∀ x ∈ db2, x ∈ db ∨
      (∀ r ∈ g, x.event_start = r.event_start → x.source = r.source →
        x ∈ dropVsDb db res g)) :
    dropVsDb db2 res g = [] := by
  cases g with
  | nil => rfl
  | cons r0 rest =>
    have hkey : ∀ x ∈ r0 :: rest,
        beliefTime res x = beliefTime res r0 ∧ x.source = r0.source := by
      intro x hx
      have h1 := (hgk x hx).trans (hgk r0 (List.mem_cons_self _ _)).symm
      simpa using Prod.ext_iff.mp h1
    have hsign : ∀ x ∈ r0 :: rest, signMatch r0 x := by
      intro x hx
      rcases hhom with h | h
      · unfold signMatch
        rw [if_pos (h r0 (List.mem_cons_self _ _))]
        exact le_of_lt (h x hx)
      · unfold signMatch
        rw [if_neg (by have := h r0 (List.mem_cons_self _ _); omega)]
        exact h x hx
    have hrange : ∀ x ∈ r0 :: rest, r0.event_start ≤ x.event_start ∧
        x.event_start + res ≤ ((r0 :: rest).getLastD r0).event_start + res := by
      intro x hx
      constructor
      · rcases List.mem_cons.mp hx with rfl | hxr
        · exact le_refl _
        · exact (List.pairwise_cons.mp hsorted).1 x hxr
      · have := sorted_le_getLastD hsorted hx r0
        omega
    have main : ∀ r ∈ r0 :: rest, dupKey r ∈ groupBidx db2 res (r0 :: rest) r0 := by
      intro r hr
      by_cases hc : (groupAfterDrop db res (r0 :: rest) r0).any
          (fun r2 => r2.event_start = r.event_start ∧ r2.source = r.source) = true
      · have hrkeep : r ∈ dropVsDb db res (r0 :: rest) := by
          refine mem_dropVsDb_cons.mpr ⟨hr, ?_⟩
          rcases List.any_eq_true.mp hc with ⟨w, hw, hwp⟩
          exact ⟨w, hw, by simpa using hwp⟩
        have hrdb2 : r ∈ db2 := hkeep r hrkeep
        have hrprev : r ∈ groupPrev db2 res (r0 :: rest) r0 :=
          mem_groupPrev.mpr ⟨hrdb2, (hkey r hr).2, hsign r hr, (hrange r hr).1,
            (hrange r hr).2, le_of_eq (hkey r hr).1⟩
        have hrmr : r ∈ mostRecentRows res (groupPrev db2 res (r0 :: rest) r0) := by
          refine mem_mostRecentRows.mpr ⟨hrprev, ?_⟩
          intro d2 hd2 _
          have h6 := (mem_groupPrev.mp hd2).2.2.2.2.2
          rw [(hkey r hr).1]
          exact h6
        exact List.mem_map.mpr ⟨r, hrmr, rfl⟩
      · have hrnot : dupKey r ∈ groupBidx db res (r0 :: rest) r0 := by
          by_contra hno
          exact hc (List.any_eq_true.mpr
            ⟨r, mem_groupAfterDrop.mpr ⟨hr, hno⟩, by simp⟩)
        rcases List.mem_map.mp hrnot with ⟨d, hdmr, hdkey⟩
        have hdfacts := mem_mostRecentRows.mp hdmr
        have hdprev := mem_groupPrev.mp hdfacts.1
        have hde : d.event_start = r.event_start := by
          have := congrArg (fun q : Int × Nat × Int × Int => q.1) hdkey
          simpa [dupKey] using this
        have hdprev2 : d ∈ groupPrev db2 res (r0 :: rest) r0 :=
          mem_groupPrev.mpr ⟨hdb d hdprev.1, hdprev.2.1, hdprev.2.2.1,
            hdprev.2.2.2.1, hdprev.2.2.2.2.1, hdprev.2.2.2.2.2⟩
        have hdmr2 : d ∈ mostRecentRows res (groupPrev db2 res (r0 :: rest) r0) := by
          refine mem_mostRecentRows.mpr ⟨hdprev2, ?_⟩
          intro d2 hd2 he2
          have hd2facts := mem_groupPrev.mp hd2
          rcases hnew d2 hd2facts.1 with hold | hnew2
          · exact hdfacts.2 d2
              (mem_groupPrev.mpr ⟨hold, hd2facts.2.1, hd2facts.2.2.1,
                hd2facts.2.2.2.1, hd2facts.2.2.2.2.1, hd2facts.2.2.2.2.2⟩) he2
          · exfalso
            have hd2e : d2.event_start = r.event_start := by rw [he2, hde]
            have hd2s : d2.source = r.source := by
              rw [hd2facts.2.1, (hkey r hr).2]
            have hd2keep := hnew2 r hr hd2e hd2s
            rcases mem_dropVsDb_cons.mp hd2keep with ⟨-, w, hw, hwe, hws⟩
            apply hc
            refine List.any_eq_true.mpr ⟨w, hw, ?_⟩
            simp only [decide_eq_true_eq]
            exact ⟨by rw [hwe, hd2e], by rw [hws, hd2s]⟩
        exact hdkey ▸ List.mem_map.mpr ⟨d, hdmr2, rfl⟩
    have hafter : groupAfterDrop db2 res (r0 :: rest) r0 = [] := by
      unfold groupAfterDrop
      refine List.filter_eq_nil_iff.mpr ?_
      intro a ha
      simp only [decide_eq_true_eq]
      exact not_not.mpr (main a ha)
    show (r0 :: rest).filter (fun r =>
        (groupAfterDrop db2 res (r0 :: rest) r0).any (fun r2 =>
          r2.event_start = r.event_start ∧ r2.source = r.source)) = []
    rw [hafter]
    refine List.filter_eq_nil_iff.mpr ?_
    intro a ha
    simp

/-- Lifting of dropVsDb_second_empty to the whole homogeneous path: every
group of the (deterministic) within-batch dedup empties on the second
pass. -/
theorem homogDrop_second_empty (db db2 l : List Belief) (res : Int)
    (hhom : (∀ x ∈ l, 0 < x.belief_horizon) ∨ (∀ x ∈ l, x.belief_horizon ≤ 0))
    (hS : ∀ x ∈ homogDrop db res l, x ∈ db2)
    (hdb : ∀ x ∈ db, x ∈ db2)
    (hloc : ∀ x ∈ db2, x ∉ db →
      ∀ r, r ∈ withinDedup res l → x.event_start = r.event_start →
        x.source = r.source →
        x ∈ dropVsDb db res
          (groupOf res (withinDedup res l) (beliefTime res r, r.source))) :
    homogDrop db2 res l = [] := by
  unfold homogDrop
  refine List.flatMap_eq_nil_iff.mpr ?_
  intro k hk
  apply dropVsDb_second_empty db db2 res k
  · intro x hx
    exact (groupOf_key hx).1
  · exact groupOf_sorted k (withinDedup_sorted res l)
  · rcases hhom with h | h
    · exact Or.inl (fun x hx => h x (mem_withinDedup (groupOf_key hx).2))
    · exact Or.inr (fun x hx => h x (mem_withinDedup (groupOf_key hx).2))
  · intro x hx
    exact hS x (List.mem_flatMap.mpr ⟨k, hk, hx⟩)
  · exact hdb
  · intro x hx
    by_cases hxdb : x ∈ db
    · exact Or.inl hxdb
    · refine Or.inr ?_
      intro r hrg hxe hxs
      have hgr := groupOf_key hrg
      have hres := hloc x hx hxdb r hgr.2 hxe hxs
      rw [hgr.1] at hres
      exact hres

/-- C1 amended: the write-path deduplication is idempotent for batches in
which each (event_start, source) pair carries a single belief horizon: once
the first call's survivors have been persisted and the store is otherwise
unchanged, a second call on the same batch returns the empty set. -/
theorem c1_idempotent_amended (db B db2 : List Belief) (res : Int)
    (hsingle : ∀ x ∈ B, ∀ y ∈ B, x.event_start = y.event_start →
      x.source = y.source → x.belief_horizon = y.belief_horizon)
    (hmem : ∀ x, x ∈ db2 ↔ x ∈ db ∨ x ∈ drop_unchanged_beliefs db res B) :
    drop_unchanged_beliefs db2 res B = [] := by
  by_cases hB : B = []
  · subst hB
    simp [drop_unchanged_beliefs]
  by_cases hmix : B.filter (fun r => 0 < r.belief_horizon) ≠ [] ∧
      B.filter (fun r => r.belief_horizon ≤ 0) ≠ []
  · have hSeq : drop_unchanged_beliefs db res B =
        homogDrop db res (B.filter (fun r => 0 < r.belief_horizon)) ++
          homogDrop db res (B.filter (fun r => r.belief_horizon ≤ 0)) := by
      unfold drop_unchanged_beliefs
      rw [if_neg hB, if_pos hmix]
    have hgoal : drop_unchanged_beliefs db2 res B =
        homogDrop db2 res (B.filter (fun r => 0 < r.belief_horizon)) ++
          homogDrop db2 res (B.filter (fun r => r.belief_horizon ≤ 0)) := by
      unfold drop_unchanged_beliefs
      rw [if_neg hB, if_pos hmix]
    have hxB_of_S : ∀ x, x ∈ drop_unchanged_beliefs db res B → x ∈ B := by
      intro x hx
      rw [hSeq] at hx
      rcases List.mem_append.mp hx with h | h
      · exact (List.mem_filter.mp (mem_homogDrop_sub h)).1
      · exact (List.mem_filter.mp (mem_homogDrop_sub h)).1
    have hlocA : ∀ x ∈ db2, x ∉ db →
        ∀ r, r ∈ withinDedup res (B.filter (fun r => 0 < r.belief_horizon)) →
          x.event_start = r.event_start → x.source = r.source →
          x ∈ dropVsDb db res
            (groupOf res (withinDedup res (B.filter (fun r => 0 < r.belief_horizon)))
              (beliefTime res r, r.source)) := by
      intro x hx hxdb r hrwd hxe hxs
      have hxS : x ∈ drop_unchanged_beliefs db res B :=
        ((hmem x).mp hx).resolve_left hxdb
      have hrA := mem_withinDedup hrwd
      have hrpos : 0 < r.belief_horizon := by
        have := (List.mem_filter.mp hrA).2
        simpa using this
      have hrB : r ∈ B := (List.mem_filter.mp hrA).1
      have hxB : x ∈ B := hxB_of_S x hxS
      have hxh : x.belief_horizon = r.belief_horizon := hsingle x hxB r hrB hxe hxs
      have hxA : x ∈ homogDrop db res (B.filter (fun r => 0 < r.belief_horizon)) := by
        rw [hSeq] at hxS
        rcases List.mem_append.mp hxS with h | h
        · exact h
        · exfalso
          have hxP := mem_homogDrop_sub h
          have : x.belief_horizon ≤ 0 := by
            have := (List.mem_filter.mp hxP).2
            simpa using this
          omega
      unfold homogDrop at hxA
      rcases List.mem_flatMap.mp hxA with ⟨k2, _, hxg⟩
      have hxkey := (groupOf_key (mem_dropVsDb_sub hxg)).1
      have hbtx : beliefTime res x = beliefTime res r := by
        unfold beliefTime
        rw [hxe, hxh]
      have hk2 : k2 = (beliefTime res r, r.source) := by
        rw [← hxkey, hbtx, hxs]
      rw [← hk2]
      exact hxg
    have hlocP : ∀ x ∈ db2, x ∉ db →
        ∀ r, r ∈ withinDedup res (B.filter (fun r => r.belief_horizon ≤ 0)) →
          x.event_start = r.event_start → x.source = r.source →
          x ∈ dropVsDb db res
            (groupOf res (withinDedup res (B.filter (fun r => r.belief_horizon ≤ 0)))
              (beliefTime res r, r.source)) := by
      intro x hx hxdb r hrwd hxe hxs
      have hxS : x ∈ drop_unchanged_beliefs db res B :=
        ((hmem x).mp hx).resolve_left hxdb
      have hrP := mem_withinDedup hrwd
      have hrpos : r.belief_horizon ≤ 0 := by
        have := (List.mem_filter.mp hrP).2
        simpa using this
      have hrB : r ∈ B := (List.mem_filter.mp hrP).1
      have hxB : x ∈ B := hxB_of_S x hxS
      have hxh : x.belief_horizon = r.belief_horizon := hsingle x hxB r hrB hxe hxs
      have hxP : x ∈ homogDrop db res (B.filter (fun r => r.belief_horizon ≤ 0)) := by
        rw [hSeq] at hxS
        rcases List.mem_append.mp hxS with h | h
        · exfalso
          have hxA := mem_homogDrop_sub h
          have : 0 < x.belief_horizon := by
            have := (List.mem_filter.mp hxA).2
            simpa using this
          omega
        · exact h
      unfold homogDrop at hxP
      rcases List.mem_flatMap.mp hxP with ⟨k2, _, hxg⟩
      have hxkey := (groupOf_key (mem_dropVsDb_sub hxg)).1
      have hbtx : beliefTime res x = beliefTime res r := by
        unfold beliefTime
        rw [hxe, hxh]
      have hk2 : k2 = (beliefTime res r, r.source) := by
        rw [← hxkey, hbtx, hxs]
      rw [← hk2]
      exact hxg
    rw [hgoal]
    have hA : homogDrop db2 res (B.filter (fun r => 0 < r.belief_horizon)) = [] := by
      apply homogDrop_second_empty db db2 _ res
      · refine Or.inl ?_
        intro x hx
        have := (List.mem_filter.mp hx).2
        simpa using this
      · intro x hx
        exact (hmem x).mpr (Or.inr (by rw [hSeq]; exact List.mem_append.mpr (Or.inl hx)))
      · intro x hx
        exact (hmem x).mpr (Or.inl hx)
      · exact hlocA
    have hP : homogDrop db2 res (B.filter (fun r => r.belief_horizon ≤ 0)) = [] := by
      apply homogDrop_second_empty db db2 _ res
      · refine Or.inr ?_
        intro x hx
        have := (List.mem_filter.mp hx).2
        simpa using this
      · intro x hx
        exact (hmem x).mpr (Or.inr (by rw [hSeq]; exact List.mem_append.mpr (Or.inr hx)))
      · intro x hx
        exact (hmem x).mpr (Or.inl hx)
      · exact hlocP
    rw [hA, hP]
    rfl
  · have hSeq : drop_unchanged_beliefs db res B = homogDrop db res B := by
      unfold drop_unchanged_beliefs
      rw [if_neg hB, if_neg hmix]
    have hgoal : drop_unchanged_beliefs db2 res B = homogDrop db2 res B := by
      unfold drop_unchanged_beliefs
      rw [if_neg hB, if_neg hmix]
    have hhom : (∀ x ∈ B, 0 < x.belief_horizon) ∨ (∀ x ∈ B, x.belief_horizon ≤ 0) := by
      rcases not_and_or.mp hmix with h | h
      · refine Or.inr ?_
        intro x hx
        have h2 := List.filter_eq_nil_iff.mp (not_not.mp h) x hx
        simp only [decide_eq_true_eq] at h2
        omega
      · refine Or.inl ?_
        intro x hx
        have h2 := List.filter_eq_nil_iff.mp (not_not.mp h) x hx
        simp only [decide_eq_true_eq] at h2
        omega
    rw [hgoal]
    apply homogDrop_second_empty db db2 B res hhom
    · intro x hx
      exact (hmem x).mpr (Or.inr (by rw [hSeq]; exact hx))
    · intro x hx
      exact (hmem x).mpr (Or.inl hx)
    · intro x hx hxdb r hrwd hxe hxs
      have hxS : x ∈ drop_unchanged_beliefs db res B :=
        ((hmem x).mp hx).resolve_left hxdb
      have hrB : r ∈ B := mem_withinDedup hrwd
      have hxB : x ∈ B := by
        rw [hSeq] at hxS
        exact mem_homogDrop_sub hxS
      have hxh : x.belief_horizon = r.belief_horizon := hsingle x hxB r hrB hxe hxs
      have hxH : x ∈ homogDrop db res B := by
        rw [hSeq] at hxS
        exact hxS
      unfold homogDrop at hxH
      rcases List.mem_flatMap.mp hxH with ⟨k2, _, hxg⟩
      have hxkey := (groupOf_key (mem_dropVsDb_sub hxg)).1
      have hbtx : beliefTime res x = beliefTime res r := by
        unfold beliefTime
        rw [hxe, hxh]
      have hk2 : k2 = (beliefTime res r, r.source) := by
        rw [← hxkey, hbtx, hxs]
      rw [← hk2]
      exact hxg

/-- C1 witness: the amended idempotence applied to a concrete single-horizon
batch against a store already holding an older belief. -/
theorem c1_witness :
    drop_unchanged_beliefs
        ([⟨0, 3, 0, 5, 9⟩] ++
          drop_unchanged_beliefs [⟨0, 3, 0, 5, 9⟩] 1 [⟨0, 2, 0, 5, 7⟩, ⟨0, 2, 0, 6, 8⟩])
        1 [⟨0, 2, 0, 5, 7⟩, ⟨0, 2, 0, 6, 8⟩] = [] := by
  apply c1_idempotent_amended
  · decide
  · intro x
    exact List.mem_append
